import Mathlib

/-!
Verification of the secret-detector-export core: a shallow embedding of the
keyword derivation, normalization, three-tier matching, merging and export
projection code, together with theorems settling the specification claims.

Modelling conventions, used throughout:

* Go strings are Lean `String`s (a list of unicode scalar values).  All the
  static table data in the program is ASCII.  `strings.ToLower` is modelled
  per-character with `Char.toLower` (which lowers exactly the ASCII range);
  `strings.TrimSpace` is modelled by dropping whitespace characters from both
  ends; `strings.HasPrefix`/`HasSuffix` are modelled on the character lists
  (for valid UTF-8 the byte-level and character-level prefix/suffix relations
  coincide); `len(s)` (Go: byte length) is modelled by `String.utf8ByteSize`.
* `strings.ReplaceAll s c ""` for a single ASCII character `c` removes every
  occurrence of that character, and is modelled as a filter on the characters.
* Go `map` values are modelled as lookup functions built by successive
  updates, exactly mirroring the write order of the source.  Iteration over a
  Go map visits each key exactly once in an unspecified order; wherever the
  source iterates over a map (the prefix-matching loop of `findTHMatch`) the
  embedding takes the visiting order as an explicit parameter, and the
  determinism theorems quantify over all orders that enumerate the key set.
  Where the source only sorts the keys afterwards (`sortedKeys`), the result
  is the sorted list of the distinct elements whatever the visiting order, and
  the embedding produces that list directly.
* `sort.Strings`/`sort.Slice` are modelled with `List.insertionSort`.  The Go
  sort is not stable, but every list the program sorts either has distinct
  elements or is sorted by a key that determines the element, so any sorting
  algorithm produces the same list.
* `time.Now()` inside `combine` is modelled by an explicit `now : Nat`
  parameter recording that the generated-at field is taken from the clock.
-/

/-! ### String primitives (embedding of the Go standard-library calls) -/

/-- Embedding of `strings.ToLower` (per-character lowering). -/
def toLowerStr (s : String) : String :=
  String.mk (s.data.map Char.toLower)

/-- Embedding of `strings.TrimSpace`: drop whitespace from both ends. -/
def trimSpace (s : String) : String :=
  String.mk (((s.data.dropWhile Char.isWhitespace).reverse.dropWhile
    Char.isWhitespace).reverse)

/-- Embedding of `strings.ReplaceAll s (String.singleton c) ""`: removing a
single-character pattern deletes every occurrence of that character. -/
def removeChar (c : Char) (s : String) : String :=
  String.mk (s.data.filter (fun a => a != c))

/-- Embedding of `strings.HasPrefix s p` (is `p` a prefix of `s`). -/
def hasPrefixStr (s p : String) : Bool :=
  p.data.isPrefixOf s.data

/-- Embedding of `strings.HasSuffix s p` (is `p` a suffix of `s`). -/
def hasSuffixStr (s p : String) : Bool :=
  p.data.isSuffixOf s.data

/-- Embedding of `dirName[:len(dirName)-len(suffix)]` when `suffix` is a
suffix of `dirName`: drop the suffix's characters from the end. -/
def dropSuffixStr (s suffix : String) : String :=
  String.mk (s.data.take (s.data.length - suffix.data.length))

/-- Embedding of `strings.Split s "-"` followed by re-packing the pieces. -/
def splitHyphen (s : String) : List String :=
  (s.data.splitOn '-').map String.mk

/-- Embedding of `strings.Join ps "-"`. -/
def joinHyphen (ps : List String) : String :=
  String.mk (List.intercalate ['-'] (ps.map String.data))

/-- Go compares strings byte-wise; on the character lists of valid UTF-8
strings this is exactly code-point lexicographic comparison (UTF-8 encoding
preserves code-point order).  This is the `a < b` of `sort.Strings`. -/
def charListLT : List Char → List Char → Bool
  | [], [] => false
  | [], _ :: _ => true
  | _ :: _, [] => false
  | a :: as, b :: bs =>
    if a < b then true else if b < a then false else charListLT as bs

/-- Go's `a < b` on strings. -/
def strLT (a b : String) : Bool := charListLT a.data b.data

/-- Go's `a ≤ b` on strings (the sortedness relation of `sort.Strings`). -/
def strLe (a b : String) : Prop := strLT b a = false

instance : DecidableRel strLe := fun a b =>
  inferInstanceAs (Decidable (strLT b a = false))

theorem charListLT_asymm : ∀ as bs, charListLT as bs = true →
    charListLT bs as = false
  | [], [] => by simp [charListLT]
  | [], _ :: _ => by intro _; simp [charListLT]
  | _ :: _, [] => by simp [charListLT]
  | a :: as, b :: bs => by
    intro h
    unfold charListLT at h ⊢
    by_cases hab : a < b
    · simp [hab, lt_asymm hab]
    · by_cases hba : b < a
      · simp [hab, hba] at h
      · simp only [if_neg hab, if_neg hba] at h ⊢
        exact charListLT_asymm as bs h

theorem charListLT_le_trans : ∀ as bs cs, charListLT bs as = false →
    charListLT cs bs = false → charListLT cs as = false
  | [], _, cs => by
    intro _ _
    cases cs <;> simp [charListLT]
  | _ :: _, [], _ => by
    intro h1 _
    simp [charListLT] at h1
  | _ :: _, _ :: _, [] => by
    intro _ h2
    simp [charListLT] at h2
  | a :: as, b :: bs, c :: cs => by
    intro h1 h2
    unfold charListLT at h1 h2 ⊢
    by_cases hba : b < a
    · simp [hba] at h1
    by_cases hcb : c < b
    · simp [hcb] at h2
    have hab : a ≤ b := not_lt.1 hba
    have hbc : b ≤ c := not_lt.1 hcb
    have hac : ¬ c < a := not_lt.2 (hab.trans hbc)
    rw [if_neg hac]
    by_cases hca : a < c
    · rw [if_pos hca]
    · rw [if_neg hca]
      have hac' : a = c := le_antisymm (hab.trans hbc) (not_lt.1 hca)
      have hab' : a = b := le_antisymm hab (hbc.trans (le_of_eq hac'.symm))
      have h1' : charListLT bs as = false := by
        rw [if_neg hba, if_neg (by rw [← hab']; exact lt_irrefl a)] at h1
        exact h1
      have h2' : charListLT cs bs = false := by
        have hbc' : b = c := hab'.symm.trans hac'
        rw [if_neg hcb, if_neg (by rw [hbc']; exact lt_irrefl c)] at h2
        exact h2
      exact charListLT_le_trans as bs cs h1' h2'

theorem charListLT_antisymm : ∀ as bs, charListLT bs as = false →
    charListLT as bs = false → as = bs
  | [], [] => by intros; rfl
  | [], _ :: _ => by
    intro _ h2
    simp [charListLT] at h2
  | _ :: _, [] => by
    intro h1 _
    simp [charListLT] at h1
  | a :: as, b :: bs => by
    intro h1 h2
    unfold charListLT at h1 h2
    by_cases hba : b < a
    · simp [hba] at h1
    by_cases hab : a < b
    · simp [hab] at h2
    have hhead : a = b := le_antisymm (not_lt.1 hba) (not_lt.1 hab)
    have h1' : charListLT bs as = false := by
      rw [if_neg hba, if_neg hab] at h1
      exact h1
    have h2' : charListLT as bs = false := by
      rw [if_neg hab, if_neg hba] at h2
      exact h2
    rw [hhead, charListLT_antisymm as bs h1' h2']

theorem strLe_total (a b : String) : strLe a b ∨ strLe b a := by
  cases h : strLT b a
  · exact Or.inl h
  · exact Or.inr (charListLT_asymm b.data a.data h)

instance : IsTotal String strLe := ⟨strLe_total⟩

instance : IsTrans String strLe :=
  ⟨fun a b c h1 h2 => charListLT_le_trans a.data b.data c.data h1 h2⟩

instance : IsAntisymm String strLe :=
  ⟨fun a b h1 h2 => by
    cases a with
    | mk da =>
      cases b with
      | mk db =>
        rw [charListLT_antisymm da db h1 h2]⟩

/-- `sort.Strings`: sort a list of strings in Go's byte-wise lexicographic
order. -/
def sortStrings (l : List String) : List String :=
  List.insertionSort strLe l

/-! ### `normalizeKeyword` (src/unnamed/part_005)

```go
func normalizeKeyword(s string) string {
    s = strings.ToLower(s)
    s = strings.ReplaceAll(s, "-", "")
    s = strings.ReplaceAll(s, "_", "")
    return s
}
``` -/

/-- `normalizeKeyword` strips hyphens/underscores (after lowercasing). -/
def normalizeKeyword (s : String) : String :=
  removeChar '_' (removeChar '-' (toLowerStr s))

/-! ### Static tables (src/unnamed/part_005) -/

/-- `credentialSuffixes`, in source order (longest-first by design). -/
def credentialSuffixes : List String :=
  [ "personalaccesstoken"
  , "personaltoken"
  , "personalapikey"
  , "organizationapi"
  , "globalapikey"
  , "apppassword"
  , "consumerkey"
  , "orgtoken"
  , "bottoken"
  , "accesstoken"
  , "apitokenv2"
  , "apitoken"
  , "apikey"
  , "api"
  , "oauth2"
  , "oauth"
  , "webhook"
  , "tokenv2"
  , "tokenv3"
  , "token"
  , "cakey"
  , "key"
  , "v2"
  , "v3"
  , "cloud"
  , "license" ]

/-- `credentialWords` (a Go `map[string]bool`; modelled as the key list,
membership is what the program reads). -/
def credentialWords : List String :=
  [ "api", "key", "token", "secret"
  , "password", "credential", "credentials"
  , "access", "auth", "authentication"
  , "oauth", "pat", "sso", "scim"
  , "admin", "user", "client", "service"
  , "bot", "app", "org", "organization"
  , "account", "personal", "personnal"
  , "public", "pub", "private", "global"
  , "shared", "custom", "sensitive"
  , "long", "short", "lived"
  , "fine", "grained"
  , "legacy", "workspace", "routable"
  , "test", "batch", "bearer"
  , "deploy", "runner", "cicd", "job"
  , "trigger", "registration", "pipeline"
  , "feed", "incoming", "session", "cookie"
  , "kubernetes", "agent", "feature", "flag"
  , "cloud", "upload", "reference", "identity"
  , "signing", "encryption", "ca", "origin"
  , "insert", "browser", "base64"
  , "config", "refresh"
  , "webhook", "url", "header", "page"
  , "ptt", "rrt" ]

/-- `glServiceOverrides` (Gitleaks-side candidate → canonical keyword). -/
def glServiceOverrides : String → Option String
  | "aws-amazon-bedrock" => some "aws"
  | "contentful-delivery" => some "contentful"
  | "curl" => some "curl"
  | "hashicorp-tf" => some "hashicorp"
  | "microsoft-teams" => some "microsoft-teams"
  | "new-relic" => some "newrelic"
  | "settlemint-application" => some "settlemint"
  | "yandex-aws" => some "yandex"
  | _ => none

/-- `thKeywordOverrides` (TruffleHog directory name → canonical keyword). -/
def thKeywordOverrides : String → Option String
  | "gcpapplicationdefaultcredentials" => some "gcp"
  | "hubspot_apikey" => some "hubspot"
  | "adafruitio" => some "adafruit"
  | "adobeio" => some "adobe"
  | "flyio" => some "flyio"
  | "frameio" => some "frameio"
  | "privatekey" => some "privatekey"
  | "sonarcloud" => some "sonar"
  | _ => none

/-- `serviceAliases` (Gitleaks keyword → TruffleHog-derived keyword). -/
def serviceAliases : String → Option String
  | "cisco-meraki" => some "meraki"
  | "maxmind-license" => some "maxmind"
  | "private-key" => some "privatekey"
  | _ => none

/-! ### Keyword derivation (src/unnamed/part_005) -/

/-- `deriveKeywordFromGitleaksID`: lowercase and trim, split on `-`, keep
tokens up to the first credential word, fall back to the whole id when no
service token survives, then apply the override table. -/
def deriveKeywordFromGitleaksID (ruleID : String) : String :=
  let r := toLowerStr (trimSpace ruleID)
  if r = "" then ""
  else
    let parts := splitHyphen r
    let serviceParts := parts.takeWhile (fun p => !(credentialWords.contains p))
    if serviceParts.isEmpty then r
    else
      let name := joinHyphen serviceParts
      match glServiceOverrides name with
      | some o => o
      | none => name

/-- The suffix-stripping loop of `deriveKeywordFromTHName`: try each suffix in
list order; strip the first one that is a suffix of `d` and whose residue is
at least 3 bytes long; otherwise keep scanning; return `d` if none accepted. -/
def stripCredentialSuffix (d : String) : List String → String
  | [] => d
  | suf :: rest =>
    if hasSuffixStr d suf then
      let base := dropSuffixStr d suf
      if 3 ≤ base.utf8ByteSize then base else stripCredentialSuffix d rest
    else stripCredentialSuffix d rest

/-- `deriveKeywordFromTHName`: lowercase and trim, consult the exact-name
override table, otherwise strip the first accepted credential suffix. -/
def deriveKeywordFromTHName (dirName : String) : String :=
  let d := toLowerStr (trimSpace dirName)
  if d = "" then ""
  else
    match thKeywordOverrides d with
    | some o => o
    | none => stripCredentialSuffix d credentialSuffixes

example : deriveKeywordFromGitleaksID "cloudflare-api-key" = "cloudflare" := by decide
example : deriveKeywordFromGitleaksID "cisco-meraki-api-key" = "cisco-meraki" := by decide
example : deriveKeywordFromGitleaksID "private-key" = "private-key" := by decide
example : deriveKeywordFromGitleaksID "" = "" := by decide
example : deriveKeywordFromGitleaksID "  " = "" := by decide
example : deriveKeywordFromTHName "cloudflareapitoken" = "cloudflare" := by decide
example : deriveKeywordFromTHName "customerio" = "customerio" := by decide
example : deriveKeywordFromTHName "twilio" = "twilio" := by decide
example : deriveKeywordFromTHName "podio" = "podio" := by decide
example : deriveKeywordFromTHName "npm" = "npm" := by decide
example : deriveKeywordFromTHName "gcp" = "gcp" := by decide
example : deriveKeywordFromTHName "gcpapplicationdefaultcredentials" = "gcp" := by decide
example : normalizeKeyword "Cisco-Meraki_Key" = "ciscomerakikey" := by decide

/-! ### Data model (src/unnamed/part_005, part_006) -/

/-- `THDetector`: a TruffleHog detector with its extracted hosts. -/
structure THDetector where
  dirName : String
  keyword : String
  hosts : List String
  deriving DecidableEq

/-- `GLRule`: a Gitleaks rule with its derived service keyword.  The Go
`Entropy float64` field is an opaque payload that is only ever copied
verbatim; it is modelled as an integer payload. -/
structure GLRule where
  id : String
  keyword : String
  description : String
  regex : String
  entropy : Int
  secretGroup : Int
  keywords : List String
  deriving DecidableEq

/-- `CombinedRule` (the Gitleaks rule fields copied into the output). -/
structure CombinedRule where
  id : String
  description : String
  regex : String
  entropy : Int
  secretGroup : Int
  keywords : List String
  deriving DecidableEq

/-- `CombinedSvc`: one canonical service in the combined output. -/
structure CombinedSvc where
  keyword : String
  hosts : List String
  matchType : String
  matchedTH : List String
  rules : List CombinedRule
  deriving DecidableEq

/-- `THOnlyEntry`: a TruffleHog detector with no Gitleaks match. -/
structure THOnlyEntry where
  keyword : String
  dirName : String
  hosts : List String
  deriving DecidableEq

/-- `CombinedStats`.  Field `matchPref` models the Go field `MatchPrefix`
(the per-match-type counter for the third tier). -/
structure CombinedStats where
  totalServices : Nat
  servicesWithHosts : Nat
  servicesNoHosts : Nat
  thOnlyServices : Nat
  totalRules : Nat
  rulesWithHosts : Nat
  matchExact : Nat
  matchPref : Nat
  matchAlias : Nat
  deriving DecidableEq

/-- `CombinedExport`.  `generatedAt` records the `time.Now()` value. -/
structure CombinedExport where
  generatedAt : Nat
  stats : CombinedStats
  services : List CombinedSvc
  thOnlyHosts : List THOnlyEntry
  glNoHosts : List String
  deriving DecidableEq

/-- `thEntry` (dir name and hosts, the values of the TH index). -/
structure ThEntry where
  dirName : String
  hosts : List String
  deriving DecidableEq

/-! ### The Merger (src/unnamed/part_006, `combine` and `findTHMatch`) -/

/-- `thByKeyword`: index TH detectors by normalized keyword, appending in
input order (a Go `map[string][]thEntry` modelled as a lookup function;
a key is present in the Go map iff the lookup here is non-empty). -/
def buildTHIndex (ds : List THDetector) : String → List ThEntry :=
  ds.foldl
    (fun m d => fun k =>
      if k = normalizeKeyword d.keyword then m k ++ [⟨d.dirName, d.hosts⟩]
      else m k)
    (fun _ => [])

/-- The key set of `thByKeyword`: the distinct normalized TH keywords. -/
def thIndexKeys (ds : List THDetector) : List String :=
  (ds.map (fun d => normalizeKeyword d.keyword)).dedup

/-- A map-iteration order is valid for one run when every `range` visit of
`thByKeyword` enumerates exactly the keys of the map, in some order. -/
def validOrders (ds : List THDetector) (orderOf : String → List String) : Prop :=
  ∀ k, (orderOf k).Perm (thIndexKeys ds)

/-- `sortedKeys` of the host-set map: whatever order the map iteration
visits, the result is the sorted list of the distinct inserted hosts. -/
def sortedKeys (l : List String) : List String :=
  sortStrings l.dedup

/-- The strategy-3 loop of `findTHMatch`: collect (in the map-iteration
order `thKeys`) every indexed keyword that strictly extends `glNorm`, then
sort for determinism. -/
def prefixMatches (glNorm : String) (thKeys : List String) : List String :=
  sortStrings (thKeys.filter (fun t => t != glNorm && hasPrefixStr t glNorm))

/-- `findTHMatch`: three tiers, first success wins.
Returns the matched normalized TH keywords and the match type
(`""` is the Go zero value meaning no match). -/
def findTHMatch (glKeyword : String) (idx : String → List ThEntry)
    (thKeys : List String) : List String × String :=
  let glNorm := normalizeKeyword glKeyword
  if idx glNorm ≠ [] then ([glNorm], "exact")
  else
    let aliasHit : Option (List String × String) :=
      match serviceAliases glKeyword with
      | some a =>
        if idx (normalizeKeyword a) ≠ [] then
          some ([normalizeKeyword a], "alias")
        else none
      | none => none
    match aliasHit with
    | some r => r
    | none =>
      if 4 ≤ glNorm.utf8ByteSize then
        let ms := prefixMatches glNorm thKeys
        if ms ≠ [] then (ms, "prefix") else ([], "")
      else ([], "")

/-- Copy a Gitleaks rule into the output shape. -/
def toCombinedRule (r : GLRule) : CombinedRule :=
  { id := r.id
    description := r.description
    regex := r.regex
    entropy := r.entropy
    secretGroup := r.secretGroup
    keywords := r.keywords }

/-- The rules of one keyword group, in input order (the Go grouping loop
appends each rule to its group in input order). -/
def glGroupRules (gl : List GLRule) (normKey : String) : List GLRule :=
  gl.filter (fun r => normalizeKeyword r.keyword == normKey)

/-- The display keyword of a group: the first-seen raw keyword. -/
def glGroupDisplay (gl : List GLRule) (normKey : String) : String :=
  match gl.find? (fun r => normalizeKeyword r.keyword == normKey) with
  | some r => r.keyword
  | none => ""

/-- The sorted list of distinct normalized Gitleaks keywords (the Go code
collects first-seen keys and then `sort.Strings`s them). -/
def glSortedKeys (gl : List GLRule) : List String :=
  sortStrings ((gl.map (fun r => normalizeKeyword r.keyword)).dedup)

/-- The TH entries claimed by a match result: for every matched keyword,
look up its entry list (a missing key contributes nothing). -/
def matchedEntries (idx : String → List ThEntry) (matchedTH : List String) :
    List ThEntry :=
  matchedTH.flatMap (fun m => idx (normalizeKeyword m))

/-- Build the `CombinedSvc` of one keyword group: union and sort the matched
hosts, record the sorted matched dir names, copy the group's rules. -/
def mkService (idx : String → List ThEntry) (orderOf : String → List String)
    (gl : List GLRule) (normKey : String) : CombinedSvc :=
  let display := glGroupDisplay gl normKey
  let res := findTHMatch display idx (orderOf normKey)
  let entries := matchedEntries idx res.1
  { keyword := display
    hosts := sortedKeys (entries.flatMap (fun e => e.hosts))
    matchType := res.2
    matchedTH := sortStrings (entries.map (fun e => e.dirName))
    rules := (glGroupRules gl normKey).map toCombinedRule }

/-- All stats counters zero. -/
def emptyStats : CombinedStats := ⟨0, 0, 0, 0, 0, 0, 0, 0, 0⟩

/-- The per-group statistics update of the `combine` loop. -/
def statsStep (s : CombinedStats) (svc : CombinedSvc) : CombinedStats :=
  let s1 := { s with totalRules := s.totalRules + svc.rules.length }
  if svc.hosts ≠ [] then
    { s1 with
      servicesWithHosts := s1.servicesWithHosts + 1
      rulesWithHosts := s1.rulesWithHosts + svc.rules.length
      matchExact := s1.matchExact + (if svc.matchType = "exact" then 1 else 0)
      matchPref := s1.matchPref + (if svc.matchType = "prefix" then 1 else 0)
      matchAlias := s1.matchAlias + (if svc.matchType = "alias" then 1 else 0) }
  else { s1 with servicesNoHosts := s1.servicesNoHosts + 1 }

/-- The services of one run, one per distinct normalized GL keyword, in
sorted key order. -/
def combineServices (th : List THDetector) (gl : List GLRule)
    (orderOf : String → List String) : List CombinedSvc :=
  (glSortedKeys gl).map (mkService (buildTHIndex th) orderOf gl)

/-- The dir names marked used (`thUsed`): exactly the dir names recorded in
some service's matched list. -/
def usedDirs (services : List CombinedSvc) : List String :=
  services.flatMap (fun s => s.matchedTH)

/-- The TH-only list: unclaimed detectors, sorted by keyword
(`sort.Slice` on the keyword field). -/
def combineTHOnly (th : List THDetector) (services : List CombinedSvc) :
    List THOnlyEntry :=
  List.insertionSort (fun a b : THOnlyEntry => strLe a.keyword b.keyword)
    ((th.filter (fun d => !((usedDirs services).contains d.dirName))).map
      (fun d => { keyword := d.keyword, dirName := d.dirName, hosts := d.hosts }))

/-- `combine` (src/unnamed/part_006): merge TH detectors and GL rules.
`now` is the `time.Now()` sample, `orderOf` the map-iteration order used by
the prefix-match loop of each group's `findTHMatch` call. -/
def combine (th : List THDetector) (gl : List GLRule) (now : Nat)
    (orderOf : String → List String) : CombinedExport :=
  let services := combineServices th gl orderOf
  let thOnly := combineTHOnly th services
  let glNoHosts :=
    sortStrings ((services.filter (fun s => s.hosts.isEmpty)).map
      (fun s => s.keyword))
  let stats0 := services.foldl statsStep emptyStats
  let stats :=
    { stats0 with
      totalServices := services.length + thOnly.length
      thOnlyServices := thOnly.length }
  { generatedAt := now
    stats := stats
    services := services
    thOnlyHosts := thOnly
    glNoHosts := glNoHosts }

/-! ### The Export Projector (src/unnamed/part_007, `toGondolinExport`) -/

/-- `ValuePattern`: a slim Gitleaks rule.  `keyword = ""` models the Go zero
value (the `omitempty` absent linkage). -/
structure ValuePattern where
  id : String
  keyword : String
  regex : String
  keywords : List String
  secretGroup : Int
  deriving DecidableEq

/-- `GondolinExport`: the slim projection.  The two maps are modelled as
lookup functions. -/
structure GondolinExport where
  schemaVersion : Nat
  generatedAt : Nat
  keywordHostMap : String → Option (List String)
  exactNameHostMap : String → Option (List String)
  valuePatterns : List ValuePattern

/-- The static `exactNameHostMap` table (env var name → hosts).  The Go code
copies it entry by entry into the output; the copy of a map is the same
lookup function. -/
def exactNameHostMap : String → Option (List String)
  | "NODE_AUTH_TOKEN" => some ["registry.npmjs.org"]
  | "DD_API_KEY" => some ["api.datadoghq.com", "*.datadoghq.com"]
  | "HF_TOKEN" => some ["huggingface.co", "*.huggingface.co"]
  | "CO_API_KEY" => some ["api.cohere.com"]
  | "FLY_API_TOKEN" => some ["api.fly.io"]
  | "RENDER_API_KEY" => some ["api.render.com"]
  | "LINEAR_API_KEY" => some ["api.linear.app"]
  | "TOGETHER_API_KEY" => some ["api.together.xyz"]
  | "REPLICATE_API_TOKEN" => some ["api.replicate.com"]
  | _ => none

/-- One write of the `keywordHosts` map-building loop: a service with a
non-empty host list writes its hosts under its display keyword. -/
def hostMapStep (m : String → Option (List String)) (svc : CombinedSvc) :
    String → Option (List String) :=
  if svc.hosts ≠ [] then
    fun k => if k = svc.keyword then some svc.hosts else m k
  else m

/-- The `keywordHosts` map: one write per service with a non-empty host
list, keyed by the display keyword, in service order. -/
def hostMapOf (services : List CombinedSvc) : String → Option (List String) :=
  services.foldl hostMapStep (fun _ => none)

/-- One write of the `hasHosts` set-building loop. -/
def hasHostsStep (m : String → Bool) (svc : CombinedSvc) : String → Bool :=
  if svc.hosts ≠ [] then
    fun k => if k = normalizeKeyword svc.keyword then true else m k
  else m

/-- The `hasHosts` set: normalized keywords of services with hosts. -/
def hasHostsOf (services : List CombinedSvc) : String → Bool :=
  services.foldl hasHostsStep (fun _ => false)

/-- Build one value pattern; the keyword linkage is present exactly when the
owning service's normalized keyword is in the `hasHosts` set. -/
def patternFor (hasH : String → Bool) (svc : CombinedSvc) (r : CombinedRule) :
    ValuePattern :=
  { id := r.id
    keyword := if hasH (normalizeKeyword svc.keyword) then svc.keyword else ""
    regex := r.regex
    keywords := r.keywords
    secretGroup := r.secretGroup }

/-- The `sort.Slice` comparator of the pattern list: non-empty keyword
first, then keyword, then id. -/
def patLess (a b : ValuePattern) : Bool :=
  if a.keyword = "" && b.keyword != "" then false
  else if a.keyword != "" && b.keyword = "" then true
  else if a.keyword != b.keyword then strLT a.keyword b.keyword
  else strLT a.id b.id

/-- Sort the pattern list (nondecreasing for the `patLess` comparator). -/
def sortPatterns (l : List ValuePattern) : List ValuePattern :=
  List.insertionSort (fun a b => patLess b a = false) l

/-- `toGondolinExport` (src/unnamed/part_007). -/
def toGondolinExport (full : CombinedExport) : GondolinExport :=
  let hasH := hasHostsOf full.services
  { schemaVersion := 1
    generatedAt := full.generatedAt
    keywordHostMap := hostMapOf full.services
    exactNameHostMap := exactNameHostMap
    valuePatterns :=
      sortPatterns (full.services.flatMap
        (fun svc => svc.rules.map (patternFor hasH svc))) }

/-! ### Claim C9: the Normalizer is idempotent -/

/-- ASCII lowering is idempotent: a lowered character is no longer in the
uppercase range, so lowering it again changes nothing. -/
theorem charToLower_idem (c : Char) :
    Char.toLower (Char.toLower c) = Char.toLower c := by
  unfold Char.toLower
  by_cases h : c.toNat ≥ 65 ∧ c.toNat ≤ 90
  · rw [if_pos h]
    have h97 : 97 ≤ c.toNat + 32 := by omega
    have h122 : c.toNat + 32 ≤ 122 := by omega
    generalize c.toNat + 32 = m at h97 h122
    interval_cases m <;> decide
  · rw [if_neg h, if_neg h]

/-- Claim C9: `normalizeKeyword` (lowercase, remove hyphens and underscores)
is idempotent: normalizing an already-normalized keyword returns it
unchanged, for every string. -/
theorem normalizeKeyword_idempotent (s : String) :
    normalizeKeyword (normalizeKeyword s) = normalizeKeyword s := by
  show String.mk _ = String.mk _
  apply congrArg
  show (((((s.data.map Char.toLower).filter (fun a => a != '-')).filter
      (fun a => a != '_')).map Char.toLower).filter (fun a => a != '-')).filter
      (fun a => a != '_') =
    ((s.data.map Char.toLower).filter (fun a => a != '-')).filter
      (fun a => a != '_')
  have hmap : ((((s.data.map Char.toLower).filter (fun a => a != '-')).filter
      (fun a => a != '_')).map Char.toLower) =
      (((s.data.map Char.toLower).filter (fun a => a != '-')).filter
        (fun a => a != '_')) := by
    have hfix : ∀ a ∈ (((s.data.map Char.toLower).filter
        (fun a => a != '-')).filter (fun a => a != '_')),
        Char.toLower a = a := by
      intro a ha
      have ha2 := (List.mem_filter.1 (List.mem_filter.1 ha).1).1
      obtain ⟨y, _, rfl⟩ := List.mem_map.1 ha2
      exact charToLower_idem y
    calc (((s.data.map Char.toLower).filter (fun a => a != '-')).filter
            (fun a => a != '_')).map Char.toLower
        = (((s.data.map Char.toLower).filter (fun a => a != '-')).filter
            (fun a => a != '_')).map id := List.map_congr_left hfix
      _ = _ := List.map_id _
  rw [hmap]
  simp only [List.filter_filter]
  apply List.filter_congr
  intro a _
  cases h1 : (a != '-') <;> cases h2 : (a != '_') <;> simp [h1, h2]

/-! ### Claim C3: the three-tier Match Resolver -/

/-- The prefix-tier candidate list is sorted. -/
theorem prefixMatches_sorted (g : String) (keys : List String) :
    List.Sorted strLe (prefixMatches g keys) :=
  List.sorted_insertionSort _ _

/-- Membership in the prefix-tier candidate list: exactly the visited keys
that strictly extend the query. -/
theorem mem_prefixMatches (g s : String) (keys : List String) :
    s ∈ prefixMatches g keys ↔
      s ∈ keys ∧ hasPrefixStr s g = true ∧ s ≠ g := by
  unfold prefixMatches sortStrings
  rw [(List.perm_insertionSort _ _).mem_iff, List.mem_filter]
  simp only [Bool.and_eq_true, bne_iff_ne]
  tauto

/-- Claim C3: `findTHMatch` evaluates exactly three tiers in order — exact,
alias, prefix — returning at the first tier that succeeds; the prefix tier is
only attempted when the normalized rule keyword is at least 4 bytes long and
returns every visited normalized host keyword that starts with the rule
keyword and is not equal to it, sorted lexicographically; if no tier succeeds
the result is the empty match set with the zero match type `""` (the encoding
of match type "none"). -/
theorem findTHMatch_tiers (k : String) (idx : String → List ThEntry)
    (keys : List String) :
    (idx (normalizeKeyword k) ≠ [] →
      findTHMatch k idx keys = ([normalizeKeyword k], "exact"))
  ∧ (∀ a, idx (normalizeKeyword k) = [] → serviceAliases k = some a →
      idx (normalizeKeyword a) ≠ [] →
      findTHMatch k idx keys = ([normalizeKeyword a], "alias"))
  ∧ (idx (normalizeKeyword k) = [] →
      (∀ a, serviceAliases k = some a → idx (normalizeKeyword a) = []) →
      4 ≤ (normalizeKeyword k).utf8ByteSize →
      prefixMatches (normalizeKeyword k) keys ≠ [] →
      findTHMatch k idx keys =
          (prefixMatches (normalizeKeyword k) keys, "prefix")
        ∧ List.Sorted strLe (findTHMatch k idx keys).1
        ∧ (∀ s, s ∈ (findTHMatch k idx keys).1 ↔
            (s ∈ keys ∧ hasPrefixStr s (normalizeKeyword k) = true
              ∧ s ≠ normalizeKeyword k)))
  ∧ (idx (normalizeKeyword k) = [] →
      (∀ a, serviceAliases k = some a → idx (normalizeKeyword a) = []) →
      (¬ 4 ≤ (normalizeKeyword k).utf8ByteSize ∨
        prefixMatches (normalizeKeyword k) keys = []) →
      findTHMatch k idx keys = ([], "")) := by
  refine ⟨?_, ?_, ?_, ?_⟩
  · intro h
    simp [findTHMatch, h]
  · intro a h1 h2 h3
    simp [findTHMatch, h1, h2, h3]
  · intro h1 h2 h3 h4
    have heq : findTHMatch k idx keys =
        (prefixMatches (normalizeKeyword k) keys, "prefix") := by
      cases hsa : serviceAliases k with
      | none => simp [findTHMatch, h1, hsa, h3, h4]
      | some a => simp [findTHMatch, h1, hsa, h2 a hsa, h3, h4]
    refine ⟨heq, ?_, ?_⟩
    · rw [heq]
      exact prefixMatches_sorted _ _
    · intro s
      rw [heq]
      exact mem_prefixMatches _ _ _
  · intro h1 h2 h3
    cases hsa : serviceAliases k with
    | none =>
      rcases h3 with h3 | h3
      · simp [findTHMatch, h1, hsa, h3]
      · simp [findTHMatch, h1, hsa, h3]
    | some a =>
      rcases h3 with h3 | h3
      · simp [findTHMatch, h1, hsa, h2 a hsa, h3]
      · simp [findTHMatch, h1, hsa, h2 a hsa, h3]

/-- Witness for C3: a concrete exercise of every tier.  With host index
`{"meraki" ↦ …, "stripex" ↦ …}`: rule keyword "meraki" hits the exact tier;
"cisco-meraki" hits the alias tier; "stri" (4 characters) hits the prefix
tier with exactly the strict extension "stripex"; the 3-character "str"
gets no tier and yields the empty result. -/
theorem findTHMatch_tiers_witness :
    (buildTHIndex [⟨"meraki", "meraki", ["api.meraki.com"]⟩,
        ⟨"stripex", "stripex", ["h.com"]⟩] "meraki" ≠ []
      ∧ findTHMatch "meraki"
          (buildTHIndex [⟨"meraki", "meraki", ["api.meraki.com"]⟩,
            ⟨"stripex", "stripex", ["h.com"]⟩])
          ["meraki", "stripex"] = (["meraki"], "exact"))
  ∧ findTHMatch "cisco-meraki"
      (buildTHIndex [⟨"meraki", "meraki", ["api.meraki.com"]⟩,
        ⟨"stripex", "stripex", ["h.com"]⟩])
      ["meraki", "stripex"] = (["meraki"], "alias")
  ∧ findTHMatch "stri"
      (buildTHIndex [⟨"meraki", "meraki", ["api.meraki.com"]⟩,
        ⟨"stripex", "stripex", ["h.com"]⟩])
      ["meraki", "stripex"] = (["stripex"], "prefix")
  ∧ findTHMatch "str"
      (buildTHIndex [⟨"meraki", "meraki", ["api.meraki.com"]⟩,
        ⟨"stripex", "stripex", ["h.com"]⟩])
      ["meraki", "stripex"] = ([], "") := by
  refine ⟨⟨by decide, ?_⟩, ?_, ?_, ?_⟩
  · exact (findTHMatch_tiers "meraki" _ _).1 (by decide)
  · exact (findTHMatch_tiers "cisco-meraki" _ _).2.1 "meraki"
      (by decide) (by decide) (by decide)
  · exact ((findTHMatch_tiers "stri" _ _).2.2.1 (by decide)
      (by decide) (by decide) (by decide)).1
  · exact (findTHMatch_tiers "str" _ _).2.2.2 (by decide)
      (by decide) (Or.inl (by decide))

/-! ### Claim C4: concatenated-name derivation (`deriveKeywordFromTHName`) -/

/-- The suffix-stripping loop returns the strip of the first suffix in list
order that both matches the end of the name and leaves a residue of at least
3 bytes, and the name unchanged when no suffix is accepted. -/
theorem stripCredentialSuffix_eq_find (d : String) (l : List String) :
    stripCredentialSuffix d l =
      match l.find? (fun suf =>
          hasSuffixStr d suf && decide (3 ≤ (dropSuffixStr d suf).utf8ByteSize)) with
      | some suf => dropSuffixStr d suf
      | none => d := by
  induction l with
  | nil => rfl
  | cons suf rest ih =>
    by_cases h1 : hasSuffixStr d suf = true
    · by_cases h2 : 3 ≤ (dropSuffixStr d suf).utf8ByteSize
      · simp [stripCredentialSuffix, List.find?_cons, h1, h2]
      · simp [stripCredentialSuffix, List.find?_cons, h1, h2, ih]
    · simp [stripCredentialSuffix, List.find?_cons, h1, ih]

/-- Claim C4: for every host-side name whose canonical (trimmed, lowered)
form is not in the exact-name override table, `deriveKeywordFromTHName`
tries each credential suffix in list order, strips the first one that
matches the end of the name and leaves at least 3 bytes, and returns that
first accepted strip; if no suffix is accepted it returns the name
unchanged; and the cited concrete examples behave as claimed
("cloudflareapitoken" → "cloudflare"; "customerio"/"twilio"/"podio",
"npm"/"gcp" unchanged; override-driven
"gcpapplicationdefaultcredentials" → "gcp"). -/
theorem deriveKeywordFromTHName_spec (dirName : String) :
    (thKeywordOverrides (toLowerStr (trimSpace dirName)) = none →
      deriveKeywordFromTHName dirName =
        (match credentialSuffixes.find? (fun suf =>
            hasSuffixStr (toLowerStr (trimSpace dirName)) suf &&
              decide (3 ≤ (dropSuffixStr (toLowerStr (trimSpace dirName))
                suf).utf8ByteSize)) with
        | some suf => dropSuffixStr (toLowerStr (trimSpace dirName)) suf
        | none => toLowerStr (trimSpace dirName)))
  ∧ deriveKeywordFromTHName "cloudflareapitoken" = "cloudflare"
  ∧ deriveKeywordFromTHName "customerio" = "customerio"
  ∧ deriveKeywordFromTHName "twilio" = "twilio"
  ∧ deriveKeywordFromTHName "podio" = "podio"
  ∧ deriveKeywordFromTHName "npm" = "npm"
  ∧ deriveKeywordFromTHName "gcp" = "gcp"
  ∧ deriveKeywordFromTHName "gcpapplicationdefaultcredentials" = "gcp" := by
  refine ⟨?_, by decide, by decide, by decide, by decide, by decide,
    by decide, by decide⟩
  intro hov
  by_cases hd : toLowerStr (trimSpace dirName) = ""
  · rw [deriveKeywordFromTHName, hd]
    simp only [if_pos rfl]
    have : ∀ suf ∈ credentialSuffixes,
        ¬ (hasSuffixStr "" suf &&
          decide (3 ≤ (dropSuffixStr "" suf).utf8ByteSize)) = true := by
      decide
    rw [List.find?_eq_none.2 this]
    simp
  · rw [deriveKeywordFromTHName]
    simp only [if_neg hd, hov]
    exact stripCredentialSuffix_eq_find _ _

/-- Witness for C4: the general clause at the concrete name
"cloudflareapitoken" (whose first accepted suffix is "apitoken"). -/
theorem deriveKeywordFromTHName_spec_witness :
    thKeywordOverrides (toLowerStr (trimSpace "cloudflareapitoken")) = none
  ∧ deriveKeywordFromTHName "cloudflareapitoken" =
      (match credentialSuffixes.find? (fun suf =>
          hasSuffixStr (toLowerStr (trimSpace "cloudflareapitoken")) suf &&
            decide (3 ≤ (dropSuffixStr (toLowerStr (trimSpace
              "cloudflareapitoken")) suf).utf8ByteSize)) with
      | some suf => dropSuffixStr (toLowerStr (trimSpace "cloudflareapitoken")) suf
      | none => toLowerStr (trimSpace "cloudflareapitoken")) :=
  ⟨by decide, (deriveKeywordFromTHName_spec "cloudflareapitoken").1 (by decide)⟩

/-! ### Claim C5: hyphenated-identifier derivation (`deriveKeywordFromGitleaksID`) -/

/-- Claim C5: `deriveKeywordFromGitleaksID` lowercases and trims the rule id,
splits on `-`, keeps the tokens before the first credential word, joins them
with `-` and applies the override table; when zero service tokens survive it
returns the whole (canonicalized) identifier; and the cited concrete examples
behave as claimed ("cloudflare-api-key" → "cloudflare";
"cisco-meraki-api-key" → "cisco-meraki"; "private-key" → "private-key";
empty and whitespace-only input → ""). -/
theorem deriveKeywordFromGitleaksID_spec (ruleID : String) :
    (deriveKeywordFromGitleaksID ruleID =
      (let r := toLowerStr (trimSpace ruleID)
       let serviceParts := (splitHyphen r).takeWhile
         (fun p => !(credentialWords.contains p))
       if r = "" then ""
       else if serviceParts.isEmpty then r
       else match glServiceOverrides (joinHyphen serviceParts) with
         | some o => o
         | none => joinHyphen serviceParts))
  ∧ deriveKeywordFromGitleaksID "cloudflare-api-key" = "cloudflare"
  ∧ deriveKeywordFromGitleaksID "cisco-meraki-api-key" = "cisco-meraki"
  ∧ deriveKeywordFromGitleaksID "private-key" = "private-key"
  ∧ deriveKeywordFromGitleaksID "" = ""
  ∧ deriveKeywordFromGitleaksID "  " = "" := by
  refine ⟨rfl, by decide, by decide, by decide, by decide, by decide⟩

/-! ### Claims C7 and C2: determinism across runs -/

/-- The sorted prefix-tier result does not depend on the map-iteration
order: any two enumerations of the same keys (in any order) give the same
sorted candidate list. -/
theorem prefixMatches_perm (g : String) {keys1 keys2 : List String}
    (h : keys1.Perm keys2) :
    prefixMatches g keys1 = prefixMatches g keys2 := by
  apply List.eq_of_perm_of_sorted
    (r := strLe)
  · exact (List.perm_insertionSort _ _).trans
      ((h.filter _).trans (List.perm_insertionSort _ _).symm)
  · exact List.sorted_insertionSort _ _
  · exact List.sorted_insertionSort _ _

/-- `findTHMatch` does not depend on the map-iteration order. -/
theorem findTHMatch_orderIndep (k : String) (idx : String → List ThEntry)
    {keys1 keys2 : List String} (h : keys1.Perm keys2) :
    findTHMatch k idx keys1 = findTHMatch k idx keys2 := by
  unfold findTHMatch
  simp only [prefixMatches_perm (normalizeKeyword k) h]

/-- A group's service record does not depend on the map-iteration order. -/
theorem mkService_orderIndep (idx : String → List ThEntry)
    (o1 o2 : String → List String) (gl : List GLRule) (n : String)
    (h : (o1 n).Perm (o2 n)) :
    mkService idx o1 gl n = mkService idx o2 gl n := by
  unfold mkService
  simp only [findTHMatch_orderIndep (glGroupDisplay gl n) idx h]

/-- Two runs whose map-iteration orders enumerate the same keys produce the
same export when sampled at the same clock value. -/
theorem combine_eq_of_orders (th : List THDetector) (gl : List GLRule)
    (now : Nat) (o1 o2 : String → List String)
    (h : ∀ k, (o1 k).Perm (o2 k)) :
    combine th gl now o1 = combine th gl now o2 := by
  have hs : combineServices th gl o1 = combineServices th gl o2 := by
    unfold combineServices
    exact List.map_congr_left
      (fun n _ => mkService_orderIndep (buildTHIndex th) o1 o2 gl n (h n))
  unfold combine
  simp only [hs]

/-- Claim C7: for every two runs of the Merger on identical input lists, the
two resulting `CombinedSvc` lists are identical in both ordering and content,
for any two valid map-iteration orders (the model of the Go unordered-map
traversals) and any two clock samples. -/
theorem combine_services_deterministic (th : List THDetector)
    (gl : List GLRule) (t1 t2 : Nat) (o1 o2 : String → List String)
    (h1 : validOrders th o1) (h2 : validOrders th o2) :
    (combine th gl t1 o1).services = (combine th gl t2 o2).services := by
  have hp : ∀ k, (o1 k).Perm (o2 k) := fun k => (h1 k).trans (h2 k).symm
  have e := combine_eq_of_orders th gl t1 o1 o2 hp
  calc (combine th gl t1 o1).services
      = (combine th gl t1 o2).services := congrArg CombinedExport.services e
    _ = (combine th gl t2 o2).services := rfl

/-- Witness for C7: a concrete pair of runs with different iteration orders
and different clock samples. -/
theorem combine_services_deterministic_witness :
    validOrders [⟨"foobartoken", "foobar", ["api.foobar.com"]⟩,
        ⟨"barbaz", "barbaz", ["b.com"]⟩]
      (fun _ => ["foobar", "barbaz"])
  ∧ validOrders [⟨"foobartoken", "foobar", ["api.foobar.com"]⟩,
        ⟨"barbaz", "barbaz", ["b.com"]⟩]
      (fun _ => ["barbaz", "foobar"])
  ∧ (combine [⟨"foobartoken", "foobar", ["api.foobar.com"]⟩,
        ⟨"barbaz", "barbaz", ["b.com"]⟩]
      [⟨"foob-api-key", "foob", "", "x", 0, 0, []⟩] 0
      (fun _ => ["foobar", "barbaz"])).services =
    (combine [⟨"foobartoken", "foobar", ["api.foobar.com"]⟩,
        ⟨"barbaz", "barbaz", ["b.com"]⟩]
      [⟨"foob-api-key", "foob", "", "x", 0, 0, []⟩] 7
      (fun _ => ["barbaz", "foobar"])).services :=
  ⟨by intro k; beta_reduce; decide, by intro k; beta_reduce; decide,
    combine_services_deterministic _ _ 0 7 _ _
      (by intro k; beta_reduce; decide) (by intro k; beta_reduce; decide)⟩

/-- The claim of C2, as stated: identical input lists always give
byte-identical complete outputs, for any two runs (any clock samples, any
valid iteration orders). -/
def combineByteIdentical : Prop :=
  ∀ (th : List THDetector) (gl : List GLRule) (now1 now2 : Nat)
    (o1 o2 : String → List String),
    validOrders th o1 → validOrders th o2 →
    combine th gl now1 o1 = combine th gl now2 o2

/-- Counterexample to C2 as stated: the complete output embeds the
`time.Now()` sample (`generated_at`), so two runs over the empty input at
clock values 0 and 1 differ in that field. -/
theorem combine_not_byte_identical : ¬ combineByteIdentical := by
  intro h
  have e := h [] [] 0 1 (fun _ => []) (fun _ => [])
    (by intro k; beta_reduce; decide) (by intro k; beta_reduce; decide)
  have e0 : (combine [] [] 0 (fun _ => [])).generatedAt = 0 := rfl
  have e1 : (combine [] [] 1 (fun _ => [])).generatedAt = 1 := rfl
  rw [e] at e0
  rw [e1] at e0
  exact absurd e0 (by decide)

/-- Claim C2, amended: for every two runs of the Merger on identical input
lists, every part of the output except the generated-at timestamp — the
statistics, the service list, the host-only list and the no-host keyword
list, each with its ordering — is identical. -/
theorem combine_deterministic_up_to_timestamp (th : List THDetector)
    (gl : List GLRule) (t1 t2 : Nat) (o1 o2 : String → List String)
    (h1 : validOrders th o1) (h2 : validOrders th o2) :
    (combine th gl t1 o1).stats = (combine th gl t2 o2).stats
  ∧ (combine th gl t1 o1).services = (combine th gl t2 o2).services
  ∧ (combine th gl t1 o1).thOnlyHosts = (combine th gl t2 o2).thOnlyHosts
  ∧ (combine th gl t1 o1).glNoHosts = (combine th gl t2 o2).glNoHosts := by
  have hp : ∀ k, (o1 k).Perm (o2 k) := fun k => (h1 k).trans (h2 k).symm
  have e := combine_eq_of_orders th gl t1 o1 o2 hp
  refine ⟨?_, ?_, ?_, ?_⟩
  · exact (congrArg CombinedExport.stats e).trans rfl
  · exact (congrArg CombinedExport.services e).trans rfl
  · exact (congrArg CombinedExport.thOnlyHosts e).trans rfl
  · exact (congrArg CombinedExport.glNoHosts e).trans rfl

/-- Witness for the amended C2: concrete runs with different orders and
clock samples agree on all four components. -/
theorem combine_deterministic_up_to_timestamp_witness :
    validOrders [⟨"stripex", "stripex", ["h.com"]⟩] (fun _ => ["stripex"])
  ∧ ((combine [⟨"stripex", "stripex", ["h.com"]⟩]
        [⟨"a", "stri", "", "r1", 0, 0, []⟩] 0 (fun _ => ["stripex"])).stats =
      (combine [⟨"stripex", "stripex", ["h.com"]⟩]
        [⟨"a", "stri", "", "r1", 0, 0, []⟩] 5 (fun _ => ["stripex"])).stats
    ∧ (combine [⟨"stripex", "stripex", ["h.com"]⟩]
        [⟨"a", "stri", "", "r1", 0, 0, []⟩] 0 (fun _ => ["stripex"])).services =
      (combine [⟨"stripex", "stripex", ["h.com"]⟩]
        [⟨"a", "stri", "", "r1", 0, 0, []⟩] 5 (fun _ => ["stripex"])).services
    ∧ (combine [⟨"stripex", "stripex", ["h.com"]⟩]
        [⟨"a", "stri", "", "r1", 0, 0, []⟩] 0
          (fun _ => ["stripex"])).thOnlyHosts =
      (combine [⟨"stripex", "stripex", ["h.com"]⟩]
        [⟨"a", "stri", "", "r1", 0, 0, []⟩] 5
          (fun _ => ["stripex"])).thOnlyHosts
    ∧ (combine [⟨"stripex", "stripex", ["h.com"]⟩]
        [⟨"a", "stri", "", "r1", 0, 0, []⟩] 0 (fun _ => ["stripex"])).glNoHosts =
      (combine [⟨"stripex", "stripex", ["h.com"]⟩]
        [⟨"a", "stri", "", "r1", 0, 0, []⟩] 5 (fun _ => ["stripex"])).glNoHosts) :=
  ⟨by intro k; beta_reduce; decide,
    combine_deterministic_up_to_timestamp _ _ 0 5 _ _
      (by intro k; beta_reduce; decide) (by intro k; beta_reduce; decide)⟩

/-! ### Claim C6: aggregate statistics invariants -/

/-- Each group increments exactly one of the with-hosts / no-hosts
counters. -/
theorem foldl_statsStep_with_no (l : List CombinedSvc) (s : CombinedStats) :
    (l.foldl statsStep s).servicesWithHosts +
      (l.foldl statsStep s).servicesNoHosts =
    s.servicesWithHosts + s.servicesNoHosts + l.length := by
  induction l generalizing s with
  | nil => simp
  | cons svc rest ih =>
    rw [List.foldl_cons, ih]
    by_cases h : svc.hosts = []
    · simp [statsStep, h]
      omega
    · simp [statsStep, h]
      omega

/-- Claim C6: in every run's statistics, `servicesWithHosts +
servicesNoHosts` equals the number of `CombinedSvc` records, and
`totalServices` equals the number of `CombinedSvc` records plus the number
of TH-only (host-only) records. -/
theorem combine_stats_invariant (th : List THDetector) (gl : List GLRule)
    (now : Nat) (orderOf : String → List String) :
    (combine th gl now orderOf).stats.servicesWithHosts +
        (combine th gl now orderOf).stats.servicesNoHosts =
      (combine th gl now orderOf).services.length
  ∧ (combine th gl now orderOf).stats.totalServices =
      (combine th gl now orderOf).services.length +
        (combine th gl now orderOf).thOnlyHosts.length := by
  constructor
  · have h := foldl_statsStep_with_no (combineServices th gl orderOf) emptyStats
    simpa [emptyStats] using h
  · rfl

/-! ### Claim C10: per-match-type counters count only services with hosts -/

/-- The exact-tier counter counts services with hosts and match type
"exact". -/
theorem foldl_statsStep_exact (l : List CombinedSvc) (s : CombinedStats) :
    (l.foldl statsStep s).matchExact =
      s.matchExact +
        l.countP (fun svc => !svc.hosts.isEmpty && svc.matchType == "exact") := by
  induction l generalizing s with
  | nil => simp
  | cons svc rest ih =>
    rw [List.foldl_cons, ih, List.countP_cons]
    by_cases h : svc.hosts = []
    · simp [statsStep, h]
    · by_cases hm : svc.matchType = "exact"
      · simp [statsStep, h, hm]
        omega
      · simp [statsStep, h, hm]

/-- The prefix-tier counter counts services with hosts and match type
"prefix". -/
theorem foldl_statsStep_pref (l : List CombinedSvc) (s : CombinedStats) :
    (l.foldl statsStep s).matchPref =
      s.matchPref +
        l.countP (fun svc => !svc.hosts.isEmpty && svc.matchType == "prefix") := by
  induction l generalizing s with
  | nil => simp
  | cons svc rest ih =>
    rw [List.foldl_cons, ih, List.countP_cons]
    by_cases h : svc.hosts = []
    · simp [statsStep, h]
    · by_cases hm : svc.matchType = "prefix"
      · simp [statsStep, h, hm]
        omega
      · simp [statsStep, h, hm]

/-- The alias-tier counter counts services with hosts and match type
"alias". -/
theorem foldl_statsStep_alias (l : List CombinedSvc) (s : CombinedStats) :
    (l.foldl statsStep s).matchAlias =
      s.matchAlias +
        l.countP (fun svc => !svc.hosts.isEmpty && svc.matchType == "alias") := by
  induction l generalizing s with
  | nil => simp
  | cons svc rest ih =>
    rw [List.foldl_cons, ih, List.countP_cons]
    by_cases h : svc.hosts = []
    · simp [statsStep, h]
    · by_cases hm : svc.matchType = "alias"
      · simp [statsStep, h, hm]
        omega
      · simp [statsStep, h, hm]

/-- The with-hosts counter counts services with a non-empty host set. -/
theorem foldl_statsStep_withHosts (l : List CombinedSvc) (s : CombinedStats) :
    (l.foldl statsStep s).servicesWithHosts =
      s.servicesWithHosts + l.countP (fun svc => !svc.hosts.isEmpty) := by
  induction l generalizing s with
  | nil => simp
  | cons svc rest ih =>
    rw [List.foldl_cons, ih, List.countP_cons]
    by_cases h : svc.hosts = []
    · simp [statsStep, h]
    · simp [statsStep, h]
      omega

/-- The no-hosts counter counts services with an empty host set,
regardless of their match type. -/
theorem foldl_statsStep_noHosts (l : List CombinedSvc) (s : CombinedStats) :
    (l.foldl statsStep s).servicesNoHosts =
      s.servicesNoHosts + l.countP (fun svc => svc.hosts.isEmpty) := by
  induction l generalizing s with
  | nil => simp
  | cons svc rest ih =>
    rw [List.foldl_cons, ih, List.countP_cons]
    by_cases h : svc.hosts = []
    · simp [statsStep, h]
      omega
    · simp [statsStep, h]

/-- A no-match result carries no matched keywords. -/
theorem findTHMatch_type_cases (k : String) (idx : String → List ThEntry)
    (keys : List String) :
    (findTHMatch k idx keys).2 = "exact" ∨
    (findTHMatch k idx keys).2 = "alias" ∨
    (findTHMatch k idx keys).2 = "prefix" ∨
    ((findTHMatch k idx keys).2 = "" ∧ (findTHMatch k idx keys).1 = []) := by
  unfold findTHMatch
  by_cases h1 : idx (normalizeKeyword k) ≠ []
  · simp [h1]
  · cases hsa : serviceAliases k with
    | none =>
      by_cases h3 : 4 ≤ (normalizeKeyword k).utf8ByteSize
      · by_cases h4 : prefixMatches (normalizeKeyword k) keys = []
        · simp [h1, hsa, h3, h4]
        · simp [h1, hsa, h3, h4]
      · simp [h1, hsa, h3]
    | some a =>
      by_cases h2 : idx (normalizeKeyword a) ≠ []
      · simp [h1, hsa, h2]
      · by_cases h3 : 4 ≤ (normalizeKeyword k).utf8ByteSize
        · by_cases h4 : prefixMatches (normalizeKeyword k) keys = []
          · simp [h1, hsa, h2, h3, h4]
          · simp [h1, hsa, h2, h3, h4]
        · simp [h1, hsa, h2, h3]

/-- A service with a non-empty merged host set has one of the three
successful match types (a no-match service has no entries, hence no
hosts). -/
theorem mkService_matchType_of_hosts (idx : String → List ThEntry)
    (orderOf : String → List String) (gl : List GLRule) (n : String)
    (h : (mkService idx orderOf gl n).hosts ≠ []) :
    (mkService idx orderOf gl n).matchType = "exact" ∨
    (mkService idx orderOf gl n).matchType = "alias" ∨
    (mkService idx orderOf gl n).matchType = "prefix" := by
  rcases findTHMatch_type_cases (glGroupDisplay gl n) idx (orderOf n) with
    hc | hc | hc | hc
  · exact Or.inl hc
  · exact Or.inr (Or.inl hc)
  · exact Or.inr (Or.inr hc)
  · exfalso
    apply h
    show sortedKeys ((matchedEntries idx
      (findTHMatch (glGroupDisplay gl n) idx (orderOf n)).1).flatMap
        (fun e => e.hosts)) = []
    rw [hc.2]
    rfl

/-- Splitting the with-hosts count over the three match types, for a list
whose with-hosts members all have one of the three types. -/
theorem countP_hosts_split (l : List CombinedSvc)
    (h : ∀ svc ∈ l, svc.hosts ≠ [] →
      svc.matchType = "exact" ∨ svc.matchType = "alias" ∨
        svc.matchType = "prefix") :
    l.countP (fun svc => !svc.hosts.isEmpty) =
      l.countP (fun svc => !svc.hosts.isEmpty && svc.matchType == "exact") +
      l.countP (fun svc => !svc.hosts.isEmpty && svc.matchType == "prefix") +
      l.countP (fun svc => !svc.hosts.isEmpty && svc.matchType == "alias") := by
  induction l with
  | nil => simp
  | cons svc rest ih =>
    have hrest := ih (fun s hs => h s (List.mem_cons_of_mem _ hs))
    simp only [List.countP_cons]
    by_cases hh : svc.hosts = []
    · simp [hh, hrest]
    · rcases h svc (List.mem_cons_self _ _) hh with hm | hm | hm <;>
        simp [hh, hm, hrest] <;> omega

/-- Claim C10: the per-match-type counters count exactly the services whose
merged host set is non-empty (split by match type), so their sum is
`servicesWithHosts`; a service with an empty host set is counted under
`servicesNoHosts` whatever its match type. -/
theorem combine_match_type_counters (th : List THDetector) (gl : List GLRule)
    (now : Nat) (orderOf : String → List String) :
    (combine th gl now orderOf).stats.matchExact +
        (combine th gl now orderOf).stats.matchPref +
        (combine th gl now orderOf).stats.matchAlias =
      (combine th gl now orderOf).stats.servicesWithHosts
  ∧ (combine th gl now orderOf).stats.matchExact =
      (combine th gl now orderOf).services.countP
        (fun svc => !svc.hosts.isEmpty && svc.matchType == "exact")
  ∧ (combine th gl now orderOf).stats.matchPref =
      (combine th gl now orderOf).services.countP
        (fun svc => !svc.hosts.isEmpty && svc.matchType == "prefix")
  ∧ (combine th gl now orderOf).stats.matchAlias =
      (combine th gl now orderOf).services.countP
        (fun svc => !svc.hosts.isEmpty && svc.matchType == "alias")
  ∧ (combine th gl now orderOf).stats.servicesNoHosts =
      (combine th gl now orderOf).services.countP
        (fun svc => svc.hosts.isEmpty) := by
  have hex : (combine th gl now orderOf).stats.matchExact =
      (combineServices th gl orderOf).countP
        (fun svc => !svc.hosts.isEmpty && svc.matchType == "exact") := by
    have h := foldl_statsStep_exact (combineServices th gl orderOf) emptyStats
    simpa [emptyStats] using h
  have hpf : (combine th gl now orderOf).stats.matchPref =
      (combineServices th gl orderOf).countP
        (fun svc => !svc.hosts.isEmpty && svc.matchType == "prefix") := by
    have h := foldl_statsStep_pref (combineServices th gl orderOf) emptyStats
    simpa [emptyStats] using h
  have hal : (combine th gl now orderOf).stats.matchAlias =
      (combineServices th gl orderOf).countP
        (fun svc => !svc.hosts.isEmpty && svc.matchType == "alias") := by
    have h := foldl_statsStep_alias (combineServices th gl orderOf) emptyStats
    simpa [emptyStats] using h
  have hwh : (combine th gl now orderOf).stats.servicesWithHosts =
      (combineServices th gl orderOf).countP
        (fun svc => !svc.hosts.isEmpty) := by
    have h := foldl_statsStep_withHosts (combineServices th gl orderOf) emptyStats
    simpa [emptyStats] using h
  have hnh : (combine th gl now orderOf).stats.servicesNoHosts =
      (combineServices th gl orderOf).countP
        (fun svc => svc.hosts.isEmpty) := by
    have h := foldl_statsStep_noHosts (combineServices th gl orderOf) emptyStats
    simpa [emptyStats] using h
  have hmem : ∀ svc ∈ combineServices th gl orderOf, svc.hosts ≠ [] →
      svc.matchType = "exact" ∨ svc.matchType = "alias" ∨
        svc.matchType = "prefix" := by
    intro svc hsvc
    obtain ⟨n, _, rfl⟩ := List.mem_map.1 hsvc
    exact mkService_matchType_of_hosts (buildTHIndex th) orderOf gl n
  refine ⟨?_, hex, hpf, hal, hnh⟩
  rw [hex, hpf, hal, hwh]
  have := countP_hosts_split (combineServices th gl orderOf) hmem
  omega

/-! ### Claim C1: consumed / host-only partition of the host entities -/

/-- The claim of C1, as stated: every host entity is either consumed by
exactly one canonical service (its dir name appearing in that service's
matched list) or appears exactly once as a host-only entry — never both and
never neither. -/
def hostEntityPartition : Prop :=
  ∀ (th : List THDetector) (gl : List GLRule) (now : Nat)
    (orderOf : String → List String), validOrders th orderOf →
    ∀ d ∈ th,
      ((combine th gl now orderOf).services.countP
          (fun s => s.matchedTH.contains d.dirName) = 1
        ∧ (combine th gl now orderOf).thOnlyHosts.countP
          (fun e => e.dirName == d.dirName) = 0)
      ∨ ((combine th gl now orderOf).services.countP
          (fun s => s.matchedTH.contains d.dirName) = 0
        ∧ (combine th gl now orderOf).thOnlyHosts.countP
          (fun e => e.dirName == d.dirName) = 1)

/-- Counterexample to C1 as stated: with one TH detector "stripex" and two
rule keywords "stri" and "strip", both groups prefix-match the same
detector, so it is consumed by two canonical services, not exactly one. -/
theorem hostEntityPartition_counterexample : ¬ hostEntityPartition := by
  intro h
  have hinst := h [⟨"stripex", "stripex", ["h.com"]⟩]
    [⟨"a", "stri", "", "r1", 0, 0, []⟩, ⟨"b", "strip", "", "r2", 0, 0, []⟩]
    0 (fun _ => ["stripex"]) (by intro k; beta_reduce; decide)
    ⟨"stripex", "stripex", ["h.com"]⟩ (by decide)
  exact absurd hinst (by decide)

/-- Claim C1, amended: when the input host entities carry pairwise-distinct
source names, every host entity is either consumed by at least one
canonical service (appearing in its matched source list) and never appears
as host-only, or appears exactly once as a host-only entry and is consumed
by none — never both, never neither.  ("At least" rather than "exactly"
one: distinct rule groups can prefix-match, or exact- and prefix-match,
the same host entity.) -/
theorem combine_hostEntity_partition (th : List THDetector)
    (gl : List GLRule) (now : Nat) (orderOf : String → List String)
    (hnd : (th.map (fun d => d.dirName)).Nodup) :
    ∀ d ∈ th,
      (1 ≤ (combine th gl now orderOf).services.countP
          (fun s => s.matchedTH.contains d.dirName)
        ∧ (combine th gl now orderOf).thOnlyHosts.countP
          (fun e => e.dirName == d.dirName) = 0)
      ∨ ((combine th gl now orderOf).services.countP
          (fun s => s.matchedTH.contains d.dirName) = 0
        ∧ (combine th gl now orderOf).thOnlyHosts.countP
          (fun e => e.dirName == d.dirName) = 1) := by
  intro d hd
  have hsvcs : (combine th gl now orderOf).services =
    combineServices th gl orderOf := rfl
  have hthonly : (combine th gl now orderOf).thOnlyHosts =
    combineTHOnly th (combineServices th gl orderOf) := rfl
  rw [hsvcs, hthonly]
  have honly : (combineTHOnly th (combineServices th gl orderOf)).countP
      (fun e => e.dirName == d.dirName) =
      th.countP (fun d' => (d'.dirName == d.dirName) &&
        !((usedDirs (combineServices th gl orderOf)).contains d'.dirName)) := by
    unfold combineTHOnly
    rw [(List.perm_insertionSort _ _).countP_eq, List.countP_map,
      List.countP_filter]
    rfl
  by_cases hin : d.dirName ∈ usedDirs (combineServices th gl orderOf)
  · left
    constructor
    · obtain ⟨s, hs, hmem⟩ := List.mem_flatMap.1 hin
      have : 0 < (combineServices th gl orderOf).countP
          (fun s => s.matchedTH.contains d.dirName) := by
        rw [List.countP_pos_iff]
        exact ⟨s, hs, List.elem_iff.2 hmem⟩
      omega
    · rw [honly, List.countP_eq_zero]
      intro d' _
      by_cases he : d'.dirName = d.dirName
      · have hc : (usedDirs (combineServices th gl orderOf)).contains
            d'.dirName = true := by
          rw [he]
          exact List.elem_iff.2 hin
        simp [he, hc, hin]
      · simp [he]
  · right
    constructor
    · rw [List.countP_eq_zero]
      intro s hs
      intro hc
      exact hin (List.mem_flatMap.2 ⟨s, hs, List.elem_iff.1 hc⟩)
    · rw [honly]
      have hpt : ∀ d' ∈ th,
          ((d'.dirName == d.dirName) &&
            !((usedDirs (combineServices th gl orderOf)).contains d'.dirName)) =
          (d'.dirName == d.dirName) := by
        intro d' _
        by_cases he : d'.dirName = d.dirName
        · have hc : (usedDirs (combineServices th gl orderOf)).contains
              d'.dirName = false := by
            cases hct : (usedDirs (combineServices th gl orderOf)).contains
              d'.dirName
            · rfl
            · rw [he] at hct
              exact absurd (List.elem_iff.1 hct) hin
          simp [he, hc, hin]
        · simp [he]
      rw [List.countP_congr (fun d' h' => by rw [hpt d' h'])]
      have : th.countP (fun d' => d'.dirName == d.dirName) =
          (th.map (fun d => d.dirName)).count d.dirName := by
        rw [List.count_eq_countP, List.countP_map]
        rfl
      rw [this]
      exact List.count_eq_one_of_mem hnd
        (List.mem_map.2 ⟨d, hd, rfl⟩)

/-- Witness for the amended C1: one matched detector (consumed, not
host-only) and one unmatched detector (host-only exactly once). -/
theorem combine_hostEntity_partition_witness :
    ([⟨"stripe", "stripe", ["api.stripe.com"]⟩,
        ⟨"nogl", "nogl", ["api.nogl.com"]⟩].map
      (fun d : THDetector => d.dirName)).Nodup
  ∧ ((1 ≤ (combine [⟨"stripe", "stripe", ["api.stripe.com"]⟩,
          ⟨"nogl", "nogl", ["api.nogl.com"]⟩]
        [⟨"stripe-access-token", "stripe", "", "sk", 0, 0, []⟩] 0
        (fun _ => ["stripe", "nogl"])).services.countP
          (fun s => s.matchedTH.contains "stripe")
      ∧ (combine [⟨"stripe", "stripe", ["api.stripe.com"]⟩,
          ⟨"nogl", "nogl", ["api.nogl.com"]⟩]
        [⟨"stripe-access-token", "stripe", "", "sk", 0, 0, []⟩] 0
        (fun _ => ["stripe", "nogl"])).thOnlyHosts.countP
          (fun e => e.dirName == "stripe") = 0)
    ∨ ((combine [⟨"stripe", "stripe", ["api.stripe.com"]⟩,
          ⟨"nogl", "nogl", ["api.nogl.com"]⟩]
        [⟨"stripe-access-token", "stripe", "", "sk", 0, 0, []⟩] 0
        (fun _ => ["stripe", "nogl"])).services.countP
          (fun s => s.matchedTH.contains "stripe") = 0
      ∧ (combine [⟨"stripe", "stripe", ["api.stripe.com"]⟩,
          ⟨"nogl", "nogl", ["api.nogl.com"]⟩]
        [⟨"stripe-access-token", "stripe", "", "sk", 0, 0, []⟩] 0
        (fun _ => ["stripe", "nogl"])).thOnlyHosts.countP
          (fun e => e.dirName == "stripe") = 1)) :=
  ⟨by decide,
    combine_hostEntity_partition _ _ 0 (fun _ => ["stripe", "nogl"])
      (by decide) ⟨"stripe", "stripe", ["api.stripe.com"]⟩ (by decide)⟩

/-! ### Claim C8: the Gondolin projection -/

/-- Lookup in the `keywordHosts` map: the last-written service wins (the
write order is the service order, so the reversed list's first hit). -/
theorem foldl_hostMapStep (l : List CombinedSvc)
    (m : String → Option (List String)) (k : String) :
    (l.foldl hostMapStep m) k =
      (match l.reverse.find? (fun svc => svc.keyword == k && !svc.hosts.isEmpty) with
      | some svc => some svc.hosts
      | none => m k) := by
  induction l generalizing m with
  | nil => rfl
  | cons svc rest ih =>
    rw [List.foldl_cons, ih, List.reverse_cons, List.find?_append]
    cases hf : rest.reverse.find?
        (fun svc => svc.keyword == k && !svc.hosts.isEmpty) with
    | some s => simp [Option.or]
    | none =>
      by_cases hh : svc.hosts = []
      · simp [Option.or, hostMapStep, hh]
      · by_cases hk : svc.keyword = k
        · simp [Option.or, hostMapStep, hh, hk]
        · have hk' : ¬ k = svc.keyword := fun e => hk e.symm
          simp [Option.or, hostMapStep, hh, hk, hk']

/-- Membership in the `hasHosts` set. -/
theorem foldl_hasHostsStep (l : List CombinedSvc) (m : String → Bool)
    (nk : String) :
    (l.foldl hasHostsStep m) nk =
      (m nk || l.any
        (fun svc => (normalizeKeyword svc.keyword == nk) && !svc.hosts.isEmpty)) := by
  induction l generalizing m with
  | nil => simp
  | cons svc rest ih =>
    rw [List.foldl_cons, ih, List.any_cons]
    by_cases hh : svc.hosts = []
    · simp [hasHostsStep, hh]
    · by_cases hk : normalizeKeyword svc.keyword = nk
      · simp [hasHostsStep, hh, hk]
      · have hk' : ¬ nk = normalizeKeyword svc.keyword := fun e => hk e.symm
        have hb : (normalizeKeyword svc.keyword == nk) = false := by
          simp [hk]
        simp [hasHostsStep, hh, hk', hb]

/-- `hasHosts` holds exactly for the normalized keywords of services with a
non-empty host set. -/
theorem hasHostsOf_iff (l : List CombinedSvc) (nk : String) :
    hasHostsOf l nk = true ↔
      ∃ svc ∈ l, normalizeKeyword svc.keyword = nk ∧ svc.hosts ≠ [] := by
  unfold hasHostsOf
  rw [foldl_hasHostsStep]
  simp [List.any_eq_true]

/-- The map has an entry at `k` exactly when some service has display
keyword `k` and a non-empty host set. -/
theorem hostMapOf_isSome_iff (l : List CombinedSvc) (k : String) :
    (hostMapOf l k).isSome ↔
      ∃ svc ∈ l, svc.keyword = k ∧ svc.hosts ≠ [] := by
  unfold hostMapOf
  rw [foldl_hostMapStep]
  cases hf : l.reverse.find? (fun svc => svc.keyword == k && !svc.hosts.isEmpty) with
  | some s =>
    constructor
    · intro _
      have hp := List.find?_some hf
      have hm := List.mem_of_find?_eq_some hf
      simp only [Bool.and_eq_true, beq_iff_eq, Bool.not_eq_true',
        List.isEmpty_eq_false] at hp
      exact ⟨s, List.mem_reverse.1 hm, hp.1, hp.2⟩
    · intro _
      simp
  | none =>
    constructor
    · intro h
      exact absurd h (by simp)
    · rintro ⟨svc, hmem, hk, hh⟩
      have hfx := List.find?_eq_none.1 hf svc (List.mem_reverse.2 hmem)
      simp [hk, hh] at hfx

/-- Under distinct normalized keywords, the map entry at `k` is exactly the
(unique) service with display keyword `k` and non-empty hosts. -/
theorem hostMapOf_eq_some_iff (l : List CombinedSvc)
    (hnd : (l.map (fun s => normalizeKeyword s.keyword)).Nodup)
    (k : String) (hs : List String) :
    hostMapOf l k = some hs ↔
      ∃ svc ∈ l, svc.keyword = k ∧ svc.hosts = hs ∧ svc.hosts ≠ [] := by
  constructor
  · intro h
    have h' := h
    unfold hostMapOf at h'
    rw [foldl_hostMapStep] at h'
    cases hf : l.reverse.find?
        (fun svc => svc.keyword == k && !svc.hosts.isEmpty) with
    | some s =>
      rw [hf] at h'
      have hp := List.find?_some hf
      have hm := List.mem_of_find?_eq_some hf
      simp only [Bool.and_eq_true, beq_iff_eq, Bool.not_eq_true',
        List.isEmpty_eq_false] at hp
      refine ⟨s, List.mem_reverse.1 hm, hp.1, ?_, by simpa using hp.2⟩
      exact Option.some.inj h'
    | none =>
      rw [hf] at h'
      exact absurd h' (by simp)
  · rintro ⟨svc, hmem, hk, hhs, hne⟩
    have hsome : (hostMapOf l k).isSome :=
      (hostMapOf_isSome_iff l k).2 ⟨svc, hmem, hk, hne⟩
    unfold hostMapOf at hsome ⊢
    rw [foldl_hostMapStep] at hsome ⊢
    cases hf : l.reverse.find?
        (fun svc => svc.keyword == k && !svc.hosts.isEmpty) with
    | none => rw [hf] at hsome; simp at hsome
    | some s =>
      rw [hf] at hsome
      have hp := List.find?_some hf
      have hm := List.mem_of_find?_eq_some hf
      simp only [Bool.and_eq_true, beq_iff_eq, Bool.not_eq_true',
        List.isEmpty_eq_false] at hp
      have hsame : s = svc := by
        apply List.inj_on_of_nodup_map hnd (List.mem_reverse.1 hm) hmem
        rw [hp.1, hk]
      show some s.hosts = some hs
      rw [hsame, hhs]

/-- Every normalized keyword of a run's service list is the group key it was
built from. -/
theorem glSortedKeys_norm (gl : List GLRule) (n : String)
    (hn : n ∈ glSortedKeys gl) :
    normalizeKeyword (glGroupDisplay gl n) = n := by
  unfold glSortedKeys sortStrings at hn
  rw [(List.perm_insertionSort _ _).mem_iff, List.mem_dedup] at hn
  obtain ⟨r, hr, hnr⟩ := List.mem_map.1 hn
  have hex : ∃ r' ∈ gl, (normalizeKeyword r'.keyword == n) = true :=
    ⟨r, hr, by simp [hnr]⟩
  rw [← List.find?_isSome] at hex
  unfold glGroupDisplay
  cases hf : gl.find? (fun r => normalizeKeyword r.keyword == n) with
  | none => rw [hf] at hex; simp at hex
  | some r' =>
    have := List.find?_some hf
    simpa using this

/-- The normalized keywords of a run's services are pairwise distinct. -/
theorem combineServices_norm_nodup (th : List THDetector) (gl : List GLRule)
    (orderOf : String → List String) :
    ((combineServices th gl orderOf).map
      (fun s => normalizeKeyword s.keyword)).Nodup := by
  unfold combineServices
  rw [List.map_map]
  have : ((glSortedKeys gl).map
      (fun n => normalizeKeyword ((mkService (buildTHIndex th) orderOf gl n).keyword))) =
      (glSortedKeys gl).map id := by
    apply List.map_congr_left
    intro n hn
    exact glSortedKeys_norm gl n hn
  rw [show ((fun s : CombinedSvc => normalizeKeyword s.keyword) ∘
      mkService (buildTHIndex th) orderOf gl) =
      fun n => normalizeKeyword ((mkService (buildTHIndex th) orderOf gl n).keyword)
    from rfl, this, List.map_id]
  unfold glSortedKeys sortStrings
  exact (List.perm_insertionSort _ _).nodup_iff.2 (List.nodup_dedup _)

/-- Claim C8: for every merged dataset, the projection's keyword→hosts map
contains exactly the services whose host set is non-empty (with their host
lists), and a value pattern carries its owning service's keyword exactly
when that keyword appears in the map; the pattern list is the sorted
flattening of all services' rules. -/
theorem gondolin_projection_spec (th : List THDetector) (gl : List GLRule)
    (now : Nat) (orderOf : String → List String) :
    (∀ k hs,
      (toGondolinExport (combine th gl now orderOf)).keywordHostMap k = some hs ↔
        ∃ svc ∈ (combine th gl now orderOf).services,
          svc.keyword = k ∧ svc.hosts = hs ∧ svc.hosts ≠ [])
  ∧ (∀ svc ∈ (combine th gl now orderOf).services, ∀ r : CombinedRule,
      (patternFor (hasHostsOf (combine th gl now orderOf).services) svc r).keyword =
        (if ((toGondolinExport (combine th gl now orderOf)).keywordHostMap
            svc.keyword).isSome
          then svc.keyword else ""))
  ∧ (toGondolinExport (combine th gl now orderOf)).valuePatterns =
      sortPatterns ((combine th gl now orderOf).services.flatMap
        (fun svc => svc.rules.map
          (patternFor (hasHostsOf (combine th gl now orderOf).services) svc))) := by
  have hnd : (((combine th gl now orderOf).services).map
      (fun s => normalizeKeyword s.keyword)).Nodup :=
    combineServices_norm_nodup th gl orderOf
  have hmap : (toGondolinExport (combine th gl now orderOf)).keywordHostMap =
      hostMapOf (combine th gl now orderOf).services := rfl
  refine ⟨?_, ?_, rfl⟩
  · intro k hs
    rw [hmap]
    exact hostMapOf_eq_some_iff _ hnd k hs
  · intro svc hmem r
    rw [hmap]
    show (if hasHostsOf (combine th gl now orderOf).services
        (normalizeKeyword svc.keyword) then svc.keyword else "") = _
    by_cases hh : (hostMapOf (combine th gl now orderOf).services
        svc.keyword).isSome
    · rw [if_pos hh]
      have ⟨svc', hmem', hk', hne'⟩ := (hostMapOf_isSome_iff _ _).1 hh
      have : hasHostsOf (combine th gl now orderOf).services
          (normalizeKeyword svc.keyword) = true :=
        (hasHostsOf_iff _ _).2 ⟨svc', hmem', by rw [hk'], hne'⟩
      rw [if_pos this]
    · rw [if_neg hh]
      have : ¬ hasHostsOf (combine th gl now orderOf).services
          (normalizeKeyword svc.keyword) = true := by
        intro hht
        obtain ⟨svc', hmem', hnk', hne'⟩ := (hasHostsOf_iff _ _).1 hht
        have hsame : svc' = svc :=
          List.inj_on_of_nodup_map hnd hmem' hmem hnk'
        exact hh ((hostMapOf_isSome_iff _ _).2
          ⟨svc, hmem, rfl, hsame ▸ hne'⟩)
      simp only [this]
      simp
